import Mathlib

/-!
Verification of the layout-preserving PDF translation pipeline
(`step2_translate.py`, `preserve_layout.py`) against its specification.

Python strings are modelled as `List Char`; the translation providers and
the PDF drawing primitive, which are external collaborators, are modelled
as oracle functions supplied as parameters.
-/

namespace PdfTranslator

/-- Python strings, modelled as lists of characters. -/
abbrev Str := List Char

/-- ASCII whitespace, the characters Python's `str.strip()` and `str.isspace`
recognise on ASCII text (space, tab, newline, carriage return, vertical tab,
form feed). -/
def isWs (c : Char) : Bool :=
  c = ' ' || c = '\t' || c = '\n' || c = '\r' || c = '\x0b' || c = '\x0c'

/-- Python `s.strip()`: remove whitespace from both ends. -/
def strip (s : Str) : Str :=
  ((s.dropWhile isWs).reverse.dropWhile isWs).reverse

/-- Python `s.split(sep)` for a two-character separator `[a, b]`
(both separators used by the chunker, `"\n\n"` and `". "`, have two
characters).  Splits on every non-overlapping occurrence, left to right. -/
def splitOn2 (a b : Char) : Str → List Str
  | [] => [[]]
  | [c] => [[c]]
  | c :: d :: rest =>
    if c = a ∧ d = b then
      [] :: splitOn2 a b rest
    else
      match splitOn2 a b (d :: rest) with
      | [] => [[c]]
      | h :: t => (c :: h) :: t

/-- Python `s.split(sep)` for a one-character separator
(`chunk.split("\n")` in the scheduler's line-level fallback). -/
def splitOn1 (a : Char) : Str → List Str
  | [] => [[]]
  | c :: rest =>
    if c = a then
      [] :: splitOn1 a rest
    else
      match splitOn1 a rest with
      | [] => [[c]]
      | h :: t => (c :: h) :: t

/-- Python `sep.join(pieces)`. -/
def joinSep (sep : Str) : List Str → Str
  | [] => []
  | [x] => x
  | x :: xs => x ++ sep ++ joinSep sep xs

/-- The state threaded through `_chunk_text`'s loop: the accumulation
`buffer`, the running length estimate `current_len`, and the chunks
yielded so far. -/
structure ChunkState where
  buffer : List Str
  currentLen : Nat
  out : List Str
deriving Repr, DecidableEq

/-- `flush_buffer` in `_chunk_text`: if the buffer is non-empty, yield
`"\n\n".join(buffer)` as one chunk and clear the buffer. -/
def flushBuffer (st : ChunkState) : ChunkState :=
  if st.buffer = [] then st
  else { st with buffer := [], out := st.out ++ [joinSep ['\n', '\n'] st.buffer] }

/-- The body of the sentence loop in `_chunk_text`: strip the sentence,
drop it if empty, otherwise append it to the buffer, flushing first when
`current_len + len(sentence) + 1 > max_chars`. -/
def procSentence (maxChars : Nat) (st : ChunkState) (sentRaw : Str) : ChunkState :=
  let s := strip sentRaw
  if s = [] then st
  else if st.currentLen + s.length + 1 > maxChars then
    let st' := flushBuffer st
    { st' with buffer := [s], currentLen := s.length }
  else
    { st with buffer := st.buffer ++ [s], currentLen := st.currentLen + s.length + 1 }

/-- The body of the paragraph loop in `_chunk_text`: a paragraph longer
than `max_chars` is split on `". "` and fed sentence by sentence, then the
buffer is flushed and `current_len` reset; a short paragraph is appended
to the buffer, flushing first when `current_len + len(p) + 2 > max_chars`. -/
def procParagraph (maxChars : Nat) (st : ChunkState) (p : Str) : ChunkState :=
  if p.length > maxChars then
    let st' := (splitOn2 '.' ' ' p).foldl (procSentence maxChars) st
    let st'' := flushBuffer st'
    { st'' with currentLen := 0 }
  else if st.currentLen + p.length + 2 > maxChars then
    let st' := flushBuffer st
    { st' with buffer := [p], currentLen := p.length }
  else
    { st with buffer := st.buffer ++ [p], currentLen := st.currentLen + p.length + 2 }

/-- `_chunk_text(text, max_chars)`: split on paragraph boundaries `"\n\n"`,
splitting oversized paragraphs further on sentence boundaries `". "`, and
greedily pack pieces into chunks. The generator is modelled as the list of
all chunks it yields. -/
def chunkText (text : Str) (maxChars : Nat) : List Str :=
  if text = [] then []
  else
    let paragraphs := splitOn2 '\n' '\n' text
    let st := paragraphs.foldl (procParagraph maxChars) ⟨[], 0, []⟩
    (flushBuffer st).out

/-! ### Lemmas about the string primitives -/

theorem splitOn2_ne_nil (a b : Char) (s : Str) : splitOn2 a b s ≠ [] := by
  match s with
  | [] => simp [splitOn2]
  | [c] => simp [splitOn2]
  | c :: d :: rest =>
    rw [splitOn2]
    split
    · simp
    · cases h : splitOn2 a b (d :: rest) <;> simp

theorem joinSep_cons_cons (sep x : Str) (y : Str) (l : List Str) :
    joinSep sep (x :: y :: l) = x ++ sep ++ joinSep sep (y :: l) := rfl

theorem joinSep_cons_of_ne_nil (sep x : Str) (l : List Str) (h : l ≠ []) :
    joinSep sep (x :: l) = x ++ sep ++ joinSep sep l := by
  cases l with
  | nil => exact absurd rfl h
  | cons y t => rfl

theorem joinSep_head_cons (sep : Str) (c : Char) (h : Str) (t : List Str) :
    joinSep sep ((c :: h) :: t) = c :: joinSep sep (h :: t) := by
  cases t with
  | nil => rfl
  | cons y t' => simp [joinSep_cons_cons]

/-- Joining `s.split(sep)` back with `sep` reconstructs `s`
(two-character separator). -/
theorem joinSep_splitOn2 (a b : Char) (s : Str) :
    joinSep [a, b] (splitOn2 a b s) = s := by
  match s with
  | [] => rfl
  | [c] => rfl
  | c :: d :: rest =>
    rw [splitOn2]
    split
    · rename_i hab
      obtain ⟨ha, hb⟩ := hab
      rw [joinSep_cons_of_ne_nil _ _ _ (splitOn2_ne_nil a b rest)]
      rw [joinSep_splitOn2 a b rest]
      simp [ha, hb]
    · have hne := splitOn2_ne_nil a b (d :: rest)
      have hrec := joinSep_splitOn2 a b (d :: rest)
      cases hsp : splitOn2 a b (d :: rest) with
      | nil => exact absurd hsp hne
      | cons h t =>
        rw [hsp] at hrec
        rw [joinSep_head_cons, hrec]

/-- A character-filter that kills the separator turns `joinSep` into plain
concatenation of the filtered pieces. -/
theorem filter_joinSep (p : Char → Bool) (sep : Str)
    (hsep : ∀ c ∈ sep, p c = false) (l : List Str) :
    (joinSep sep l).filter p = (l.map (·.filter p)).flatten := by
  have hsepnil : sep.filter p = [] := by
    apply List.filter_eq_nil_iff.mpr
    intro c hc
    simp [hsep c hc]
  match l with
  | [] => rfl
  | [x] => simp [joinSep]
  | x :: y :: t =>
    rw [joinSep_cons_cons]
    have ih := filter_joinSep p sep hsep (y :: t)
    simp only [List.filter_append, hsepnil, ih]
    simp

theorem filter_dropWhile_isWs (p : Char → Bool) (hp : ∀ c, isWs c = true → p c = false)
    (s : Str) : (s.dropWhile isWs).filter p = s.filter p := by
  induction s with
  | nil => rfl
  | cons c t ih =>
    by_cases h : isWs c = true
    · simp [List.dropWhile_cons, h, List.filter_cons, hp c h, ih]
    · simp only [Bool.not_eq_true] at h
      simp [List.dropWhile_cons, h]

/-- Stripping changes no non-whitespace character: any filter that drops
whitespace agrees on `strip s` and `s`. -/
theorem filter_strip (p : Char → Bool) (hp : ∀ c, isWs c = true → p c = false)
    (s : Str) : (strip s).filter p = s.filter p := by
  unfold strip
  rw [List.filter_reverse, filter_dropWhile_isWs p hp, List.filter_reverse,
    List.reverse_reverse, filter_dropWhile_isWs p hp]

theorem strip_eq_nil_iff (s : Str) :
    strip s = [] ↔ s.filter (fun c => !isWs c) = [] := by
  constructor
  · intro h
    have := filter_strip (fun c => !isWs c) (by intro c hc; simp [hc]) s
    rw [h] at this
    exact this.symm
  · intro h
    have hall : ∀ c ∈ s, isWs c = true := by
      intro c hc
      by_contra hne
      have : c ∈ s.filter (fun c => !isWs c) := by
        rw [List.mem_filter]
        exact ⟨hc, by simp [Bool.not_eq_true] at hne ⊢; simp [hne]⟩
      rw [h] at this
      exact absurd this (List.not_mem_nil c)
    have h1 : s.dropWhile isWs = [] := List.dropWhile_eq_nil_iff.mpr hall
    simp [strip, h1]

/-! ### The chunker's conservation and non-blankness invariants -/

/-- The "core" of a string: its characters that are neither whitespace nor
a period, in order.  Chunking may move whitespace and drop sentence
periods, but we show below it conserves the core. -/
def core (s : Str) : Str := s.filter (fun c => !isWs c && !(c = '.'))

/-- The concatenated cores of a list of strings. -/
def coreAll (l : List Str) : Str := (l.map core).flatten

/-- The core of everything a chunker state holds: chunks already yielded
followed by the pending buffer. -/
def coreState (st : ChunkState) : Str := coreAll st.out ++ coreAll st.buffer

theorem coreAll_append (l₁ l₂ : List Str) :
    coreAll (l₁ ++ l₂) = coreAll l₁ ++ coreAll l₂ := by
  simp [coreAll]

theorem core_strip (s : Str) : core (strip s) = core s :=
  filter_strip _ (by intro c hc; simp [hc]) s

theorem core_of_strip_eq_nil {s : Str} (h : strip s = []) : core s = [] := by
  rw [← core_strip, h]; rfl

theorem core_joinSep_nl (l : List Str) :
    core (joinSep ['\n', '\n'] l) = coreAll l := by
  unfold core coreAll
  exact filter_joinSep _ _ (by intro c hc; simp at hc; simp [hc, isWs]) l

theorem core_joinSep_dot (l : List Str) :
    core (joinSep ['.', ' '] l) = coreAll l := by
  unfold core coreAll
  apply filter_joinSep _ _ _ l
  intro c hc
  simp only [List.mem_cons, List.not_mem_nil, or_false] at hc
  rcases hc with h | h <;> simp [h, isWs]

theorem coreState_flushBuffer (st : ChunkState) :
    coreState (flushBuffer st) = coreState st := by
  unfold flushBuffer coreState
  split
  · rfl
  · simp [coreAll_append, coreAll, core_joinSep_nl]

theorem coreState_procSentence (m : Nat) (st : ChunkState) (s : Str) :
    coreState (procSentence m st s) = coreState st ++ core s := by
  unfold procSentence
  simp only []
  split
  · rename_i h
    rw [core_of_strip_eq_nil h]
    simp
  · split
    · rename_i hne _
      have hf := coreState_flushBuffer st
      unfold coreState at hf ⊢
      have hb : (flushBuffer st).buffer = [] := by
        unfold flushBuffer
        split <;> simp_all
      simp only [hb] at hf
      simp only [coreAll] at hf ⊢
      simp at hf
      simp [hf, core_strip]
    · unfold coreState
      simp [coreAll_append, coreAll, core_strip]

theorem coreState_foldl_sentences (m : Nat) (ss : List Str) (st : ChunkState) :
    coreState (ss.foldl (procSentence m) st) = coreState st ++ coreAll ss := by
  induction ss generalizing st with
  | nil => simp [coreAll]
  | cons s t ih =>
    simp only [List.foldl_cons, ih, coreState_procSentence]
    simp [coreAll]

theorem coreState_procParagraph (m : Nat) (st : ChunkState) (p : Str) :
    coreState (procParagraph m st p) = coreState st ++ core p := by
  unfold procParagraph
  split
  · have h1 : coreState { flushBuffer ((splitOn2 '.' ' ' p).foldl (procSentence m) st) with
        currentLen := 0 } =
        coreState (flushBuffer ((splitOn2 '.' ' ' p).foldl (procSentence m) st)) := rfl
    rw [h1, coreState_flushBuffer, coreState_foldl_sentences]
    have : coreAll (splitOn2 '.' ' ' p) = core p := by
      rw [← core_joinSep_dot, joinSep_splitOn2]
    rw [this]
  · split
    · have hf := coreState_flushBuffer st
      unfold coreState at hf ⊢
      have hb : (flushBuffer st).buffer = [] := by
        unfold flushBuffer
        split <;> simp_all
      simp only [hb] at hf
      simp only [coreAll] at hf ⊢
      simp at hf
      simp [hf]
    · unfold coreState
      simp [coreAll_append, coreAll]

theorem coreState_foldl_paragraphs (m : Nat) (ps : List Str) (st : ChunkState) :
    coreState (ps.foldl (procParagraph m) st) = coreState st ++ coreAll ps := by
  induction ps generalizing st with
  | nil => simp [coreAll]
  | cons p t ih =>
    simp only [List.foldl_cons, ih, coreState_procParagraph]
    simp [coreAll]

theorem flushBuffer_buffer_eq_nil (st : ChunkState) : (flushBuffer st).buffer = [] := by
  unfold flushBuffer
  split <;> simp_all

/-- The chunker conserves the non-whitespace, non-period characters of its
input, in order: concatenating all yielded chunks and filtering yields the
filtered input. -/
theorem chunkText_core (text : Str) (m : Nat) :
    coreAll (chunkText text m) = core text := by
  unfold chunkText
  split
  · simp_all [coreAll, core]
  · have h1 : coreState (flushBuffer ((splitOn2 '\n' '\n' text).foldl
        (procParagraph m) ⟨[], 0, []⟩)) =
        coreAll (splitOn2 '\n' '\n' text) := by
      rw [coreState_flushBuffer, coreState_foldl_paragraphs]
      simp [coreState, coreAll]
    unfold coreState at h1
    rw [flushBuffer_buffer_eq_nil] at h1
    rw [show coreAll ([] : List Str) = [] from rfl, List.append_nil] at h1
    have h2 : coreAll (splitOn2 '\n' '\n' text) = core text := by
      rw [← core_joinSep_nl, joinSep_splitOn2]
    rw [h2] at h1
    exact h1

/-- Non-blankness: every chunk yielded so far and every buffered piece has
a non-whitespace character. -/
def NonBlank (st : ChunkState) : Prop :=
  (∀ c ∈ st.out, strip c ≠ []) ∧ (∀ b ∈ st.buffer, strip b ≠ [])

theorem strip_ne_nil_iff (s : Str) :
    strip s ≠ [] ↔ s.filter (fun c => !isWs c) ≠ [] :=
  not_congr (strip_eq_nil_iff s)

theorem strip_strip_ne_nil {s : Str} (h : strip s ≠ []) : strip (strip s) ≠ [] := by
  rw [strip_ne_nil_iff] at h ⊢
  rw [filter_strip _ (by intro c hc; simp [hc])]
  exact h

theorem strip_joinSep_nl_ne_nil {x : Str} {xs : List Str} (h : strip x ≠ []) :
    strip (joinSep ['\n', '\n'] (x :: xs)) ≠ [] := by
  rw [strip_ne_nil_iff] at h ⊢
  rw [filter_joinSep _ _ (by intro c hc; simp at hc; simp [hc, isWs])]
  simp only [List.map_cons, List.flatten_cons]
  intro hcontra
  rw [List.append_eq_nil] at hcontra
  exact h hcontra.1

theorem flushBuffer_nonBlank {st : ChunkState} (h : NonBlank st) :
    NonBlank (flushBuffer st) := by
  obtain ⟨hout, hbuf⟩ := h
  unfold flushBuffer
  split
  · exact ⟨hout, hbuf⟩
  · rename_i hne
    constructor
    · intro c hc
      rw [List.mem_append] at hc
      rcases hc with hc | hc
      · exact hout c hc
      · simp only [List.mem_singleton] at hc
        subst hc
        cases hb : st.buffer with
        | nil => exact absurd hb hne
        | cons x xs =>
          exact strip_joinSep_nl_ne_nil (hbuf x (hb ▸ List.mem_cons_self x xs))
    · intro b hb
      exact absurd hb (List.not_mem_nil b)

theorem procSentence_nonBlank (m : Nat) {st : ChunkState} (s : Str)
    (h : NonBlank st) : NonBlank (procSentence m st s) := by
  unfold procSentence
  simp only []
  split
  · exact h
  · rename_i hsne
    have hs' : strip (strip s) ≠ [] := strip_strip_ne_nil (by
      intro hc
      rw [hc] at hsne
      exact hsne rfl)
    split
    · have hf := flushBuffer_nonBlank h
      refine ⟨hf.1, ?_⟩
      intro b hb
      simp only [List.mem_singleton] at hb
      subst hb
      exact hs'
    · refine ⟨h.1, ?_⟩
      intro b hb
      rw [List.mem_append] at hb
      rcases hb with hb | hb
      · exact h.2 b hb
      · simp only [List.mem_singleton] at hb
        subst hb
        exact hs'

theorem foldl_sentences_nonBlank (m : Nat) (ss : List Str) {st : ChunkState}
    (h : NonBlank st) : NonBlank (ss.foldl (procSentence m) st) := by
  induction ss generalizing st with
  | nil => exact h
  | cons s t ih => exact ih (procSentence_nonBlank m s h)

theorem procParagraph_nonBlank (m : Nat) {st : ChunkState} {p : Str}
    (h : NonBlank st) (hp : strip p ≠ []) : NonBlank (procParagraph m st p) := by
  unfold procParagraph
  split
  · have h1 := flushBuffer_nonBlank (foldl_sentences_nonBlank m (splitOn2 '.' ' ' p) h)
    exact ⟨h1.1, h1.2⟩
  · split
    · have hf := flushBuffer_nonBlank h
      refine ⟨hf.1, ?_⟩
      intro b hb
      simp only [List.mem_singleton] at hb
      subst hb
      exact hp
    · refine ⟨h.1, ?_⟩
      intro b hb
      rw [List.mem_append] at hb
      rcases hb with hb | hb
      · exact h.2 b hb
      · simp only [List.mem_singleton] at hb
        subst hb
        exact hp

theorem foldl_paragraphs_nonBlank (m : Nat) (ps : List Str) {st : ChunkState}
    (h : NonBlank st) (hps : ∀ p ∈ ps, strip p ≠ []) :
    NonBlank (ps.foldl (procParagraph m) st) := by
  induction ps generalizing st with
  | nil => exact h
  | cons p t ih =>
    exact ih (procParagraph_nonBlank m h (hps p (List.mem_cons_self p t)))
      (fun q hq => hps q (List.mem_cons_of_mem p hq))

/-- The non-whitespace characters of a string, in order. -/
def nonWs (s : Str) : Str := s.filter (fun c => !isWs c)

/-- The text `"ab. cd. ef"`: one paragraph of three two-character
sentences. -/
def exText : Str := ['a', 'b', '.', ' ', 'c', 'd', '.', ' ', 'e', 'f']

/-- The single chunk `_chunk_text("ab. cd. ef", 9)` yields. -/
def exChunk : Str := ['a', 'b', '\n', '\n', 'c', 'd', '\n', '\n', 'e', 'f']

/-- C4: `_chunk_text`'s docstring promises chunks "no longer than
max_chars", and the claim allows an oversized chunk only for a single
unsplittable sentence; but on `"ab. cd. ef"` with `max_chars = 9` the code
yields the single chunk `"ab\n\ncd\n\nef"` of length 10 > 9, although every
sentence of the input has length 2 ≤ 9.  The slip: the sentence loop
accounts `+1` per sentence for the joiner, while `flush_buffer` joins with
the two-character `"\n\n"`. -/
theorem chunk_oversize_eval :
    chunkText exText 9 = [exChunk] ∧ 9 < exChunk.length ∧
      (∀ s ∈ splitOn2 '.' ' ' exText, s.length ≤ 9) := by decide

/-- C5 counterexample: the claim says no non-whitespace character of the
input is lost by chunking, but `_chunk_text("ab. cd. ef", 9)` yields the
single chunk `"ab\n\ncd\n\nef"`: the two periods of the sentence
separators are gone, so no rejoining of the chunks can reconstruct the
input up to whitespace. -/
theorem chunk_loses_periods_cex :
    chunkText exText 9 = [exChunk] ∧ nonWs exChunk ≠ nonWs exText := by decide

/-- C5 amended: joining the yielded chunks back with the paragraph joiner
`"\n\n"` reconstructs the input up to whitespace differences AND up to the
loss of the `'.'` characters of `". "` sentence separators inside
oversized paragraphs: filtering out whitespace and periods, the rejoined
chunks equal the input, for every text and every `max_chars`. -/
theorem chunk_roundtrip_core (text : Str) (maxChars : Nat) :
    core (joinSep ['\n', '\n'] (chunkText text maxChars)) = core text := by
  rw [core_joinSep_nl, chunkText_core]

/-- C6 counterexample: the claim says pieces empty after trimming are
dropped and no yielded chunk is empty after trimming, but on the text
`"\n\n"` (max_chars 10) the code yields the chunk `"\n\n"`, which trims to
empty: only sentence pieces are stripped and dropped; paragraph pieces are
appended to the buffer untrimmed. -/
theorem chunk_blank_chunk_cex :
    chunkText ['\n', '\n'] 10 = [['\n', '\n']] ∧ strip ['\n', '\n'] = [] := by
  decide

/-- C6 amended: sentence pieces empty after trimming are dropped, but
whitespace-only paragraphs are kept; whenever every paragraph of the input
is non-empty after trimming, every yielded chunk is non-empty after
trimming. -/
theorem chunk_nonblank (text : Str) (maxChars : Nat)
    (hps : ∀ p ∈ splitOn2 '\n' '\n' text, strip p ≠ []) :
    ∀ c ∈ chunkText text maxChars, strip c ≠ [] := by
  intro c hc
  unfold chunkText at hc
  split at hc
  · exact absurd hc (List.not_mem_nil c)
  · have h1 : NonBlank (flushBuffer ((splitOn2 '\n' '\n' text).foldl
        (procParagraph maxChars) ⟨[], 0, []⟩)) :=
      flushBuffer_nonBlank (foldl_paragraphs_nonBlank maxChars _ ⟨by simp, by simp⟩ hps)
    exact h1.1 c hc

/-- Witness for `chunk_nonblank` at the concrete text `"ab"`, whose single
chunk is `"ab"` itself. -/
theorem chunk_nonblank_witness : strip ['a', 'b'] ≠ [] :=
  chunk_nonblank ['a', 'b'] 10 (by decide) ['a', 'b'] (by decide)

/-! ### The translation service: provider chain, retries, fallbacks

The remote providers are external collaborators; one call is modelled by
its observable outcome: the call raises, or returns `None`, or returns a
string. -/

/-- Outcome of one call to a translation provider. -/
inductive POutcome where
  | raise
  | ret (res : Option Str)
deriving Repr, DecidableEq

/-- The acceptance test shared by the four provider blocks of
`_provider_try_all`: `(res or "").strip() and res.strip() != chunk.strip()`.
Returns the accepted result, or `none` when the call raised or produced an
empty or input-echoing result. -/
def acceptable (chunk : Str) : POutcome → Option Str
  | .raise => none
  | .ret none => none
  | .ret (some res) =>
    if strip res ≠ [] ∧ strip res ≠ strip chunk then some res else none

/-- `_provider_try_all(chunk)`: try the ordered provider chain — in the
code the fixed four-element chain Google, MyMemory (locale codes),
MyMemory (language names), LibreTranslate, modelled as a list of provider
oracles — and return the first result passing the acceptance test; if
none passes, return the original chunk so the pipeline continues. -/
def providerTryAll (providers : List (Str → POutcome)) (chunk : Str) : Str :=
  match providers with
  | [] => chunk
  | p :: ps =>
    match acceptable chunk (p chunk) with
    | some res => res
    | none => providerTryAll ps chunk

theorem acceptable_eq_some {chunk : Str} {o : POutcome} {r : Str}
    (h : acceptable chunk o = some r) :
    strip r ≠ [] ∧ strip r ≠ strip chunk := by
  cases o with
  | raise => simp [acceptable] at h
  | ret res =>
    cases res with
    | none => simp [acceptable] at h
    | some v =>
      simp only [acceptable] at h
      split at h
      · rename_i hcond
        injection h with h
        subst h
        exact hcond
      · exact absurd h (by simp)

theorem providerTryAll_of_all_degenerate {providers : List (Str → POutcome)}
    {chunk : Str} (h : ∀ p ∈ providers, acceptable chunk (p chunk) = none) :
    providerTryAll providers chunk = chunk := by
  induction providers with
  | nil => rfl
  | cons p ps ih =>
    unfold providerTryAll
    rw [h p (List.mem_cons_self p ps)]
    exact ih (fun q hq => h q (List.mem_cons_of_mem p hq))

/-- The result of `_translate_chunk`, together with how many calls it made
to the primary translator and how many `_provider_try_all` sweeps it ran.
`result = none` models the final `raise RuntimeError(...)`. -/
structure TCResult where
  result : Option Str
  primaryCalls : Nat
  sweepCalls : Nat
deriving Repr, DecidableEq

/-- The retry loop of `_translate_chunk` with `n` attempts remaining; `p`
and `s` count primary calls and provider-chain sweeps already made.
`primary i` is the outcome of the `i`-th call to the preferred translator;
`provs k` is the provider chain as observed by the `k`-th
`_provider_try_all` sweep.  When the fuel runs out, the code performs one
last-chance sweep before raising. -/
def translateChunkLoop (chunk : Str) (primary : Nat → POutcome)
    (provs : Nat → List (Str → POutcome)) : Nat → Nat → Nat → TCResult
  | 0, p, s =>
    let fb := providerTryAll (provs s) chunk
    if strip fb ≠ strip chunk then ⟨some fb, p, s + 1⟩ else ⟨none, p, s + 1⟩
  | n + 1, p, s =>
    match primary p with
    | .raise => translateChunkLoop chunk primary provs n (p + 1) s
    | .ret none => translateChunkLoop chunk primary provs n (p + 1) s
    | .ret (some res) =>
      if strip res = [] then translateChunkLoop chunk primary provs n (p + 1) s
      else if strip res = strip chunk then
        let fb := providerTryAll (provs s) chunk
        if strip fb = strip chunk then
          translateChunkLoop chunk primary provs n (p + 1) (s + 1)
        else ⟨some fb, p + 1, s + 1⟩
      else ⟨some res, p + 1, s⟩

/-- `_translate_chunk(chunk, translator, max_retries, backoff_seconds)`.
The backoff sleeps only delay; they do not affect the result and are not
modelled. -/
def translateChunk (chunk : Str) (primary : Nat → POutcome)
    (provs : Nat → List (Str → POutcome)) (maxRetries : Nat) : TCResult :=
  translateChunkLoop chunk primary provs maxRetries 0 0

/-- Whether a primary outcome echoes the input (non-empty, trim-equal):
the case that triggers an immediate in-loop provider-chain sweep. -/
def echoes (chunk : Str) : POutcome → Bool
  | .ret (some res) => decide (strip res ≠ []) && decide (strip res = strip chunk)
  | _ => false

/-! ### The scheduler of `translate_to_swahili` -/

/-- The sequential line-level fallback in `translate_to_swahili`'s
`except` handler: split the chunk on `"\n"`, replace blank pieces by `""`
and translate the others through the provider chain (a line that still
fails comes back verbatim from `_provider_try_all`), rejoin with `"\n"`,
and substitute the original chunk if the merged text trims to empty. -/
def fallbackMerge (provs : List (Str → POutcome)) (chunk : Str) : Str :=
  let parts := (splitOn1 '\n' chunk).map
    (fun piece => if strip piece = [] then [] else providerTryAll provs piece)
  let merged := joinSep ['\n'] parts
  if strip merged ≠ [] then merged else chunk

/-- The value written into `results[idx]` for chunk `idx`: the future's
result when `_translate_chunk` returned (`outcome idx = some r`), else —
the future raised — the line-level fallback of the original chunk. -/
def slotResult (chunks : List Str) (outcome : Nat → Option Str)
    (provs : List (Str → POutcome)) (i : Nat) : Str :=
  match outcome i with
  | some r => r
  | none => fallbackMerge provs (chunks.getD i [])

/-- The `as_completed` collection loop: process the futures in completion
order `order`, writing each future's slot by its original index. -/
def runCompletion (chunks : List Str) (outcome : Nat → Option Str)
    (provs : List (Str → POutcome)) : List Nat → List Str → List Str
  | [], results => results
  | idx :: rest, results =>
    runCompletion chunks outcome provs rest
      (results.set idx (slotResult chunks outcome provs idx))

/-- `translate_to_swahili(text, ...)`: chunk the text with
`max_chars = 3000`, fan the chunks out to the bounded worker pool
(`max(1, max_workers)` workers — the pool size only constrains which
completion orders can occur, so the model takes the completion order as a
parameter), collect results into the pre-sized slot array, and join with
`"\n\n"`. -/
def translateToSwahili (text : Str) (outcome : Nat → Option Str)
    (provs : List (Str → POutcome)) (order : List Nat) : Str :=
  if text = [] then []
  else
    let chunks := chunkText text 3000
    if chunks = [] then []
    else joinSep ['\n', '\n']
      (runCompletion chunks outcome provs order (List.replicate chunks.length []))

/-! ### C10: the provider chain is total and echoes exactly on failure -/

/-- C10: `_provider_try_all` swallows every provider outcome (raise,
`None`, empty, echo) and always returns a string: its result is either the
original chunk or the first provider result that is non-empty after
trimming and differs from the trimmed input; it equals the original chunk
whenever no provider result is acceptable; and its output trim-equals its
input exactly when no provider produced an acceptable translation. -/
theorem provider_try_all_total (providers : List (Str → POutcome)) (chunk : Str) :
    (providerTryAll providers chunk = chunk ∨
      ∃ p ∈ providers,
        acceptable chunk (p chunk) = some (providerTryAll providers chunk)) ∧
    ((∀ p ∈ providers, acceptable chunk (p chunk) = none) →
      providerTryAll providers chunk = chunk) ∧
    (strip (providerTryAll providers chunk) = strip chunk ↔
      ∀ p ∈ providers, acceptable chunk (p chunk) = none) := by
  refine ⟨?_, fun h => providerTryAll_of_all_degenerate h, ?_⟩
  · induction providers with
    | nil => exact Or.inl rfl
    | cons p ps ih =>
      unfold providerTryAll
      cases hacc : acceptable chunk (p chunk) with
      | some r => exact Or.inr ⟨p, List.mem_cons_self p ps, by rw [hacc]⟩
      | none =>
        rcases ih with h | ⟨q, hq, hqa⟩
        · exact Or.inl h
        · exact Or.inr ⟨q, List.mem_cons_of_mem p hq, hqa⟩
  · induction providers with
    | nil => simp [providerTryAll]
    | cons p ps ih =>
      unfold providerTryAll
      cases hacc : acceptable chunk (p chunk) with
      | some r =>
        have := acceptable_eq_some hacc
        constructor
        · intro hr
          exact absurd hr this.2
        · intro hall
          have := hall p (List.mem_cons_self p ps)
          rw [hacc] at this
          exact absurd this (by simp)
      | none =>
        rw [ih]
        constructor
        · intro hall q hq
          rcases List.mem_cons.mp hq with h | h
          · subst h; exact hacc
          · exact hall q h
        · intro hall q hq
          exact hall q (List.mem_cons_of_mem p hq)

/-! ### C2: exhaustion behaviour of `_translate_chunk` -/

/-- The retry loop under fully degenerate behaviour: if every primary
outcome is unacceptable and every provider in every sweep is degenerate,
the loop consumes all its fuel, calling the primary once per attempt and
sweeping the chain once per echoing attempt, then performs the one
last-chance sweep and raises. -/
theorem translateChunkLoop_exhausts (chunk : Str) (primary : Nat → POutcome)
    (provs : Nat → List (Str → POutcome))
    (hprim : ∀ i, acceptable chunk (primary i) = none)
    (hprov : ∀ k, ∀ p ∈ provs k, acceptable chunk (p chunk) = none) :
    ∀ n p s, translateChunkLoop chunk primary provs n p s =
      ⟨none, p + n,
        s + 1 + ((List.range' p n).filter (fun i => echoes chunk (primary i))).length⟩ := by
  intro n
  induction n with
  | zero =>
    intro p s
    unfold translateChunkLoop
    have hfb : providerTryAll (provs s) chunk = chunk :=
      providerTryAll_of_all_degenerate (hprov s)
    simp [hfb]
  | succ m ih =>
    intro p s
    unfold translateChunkLoop
    have hrange : List.range' p (m + 1) = p :: List.range' (p + 1) m := by
      rw [List.range'_succ]
    cases hp : primary p with
    | raise =>
      rw [ih (p + 1) s, hrange]
      simp [List.filter_cons, echoes, hp, Nat.add_comm, Nat.add_assoc, Nat.add_left_comm]
    | ret res =>
      cases res with
      | none =>
        rw [ih (p + 1) s, hrange]
        simp [List.filter_cons, echoes, hp, Nat.add_comm, Nat.add_assoc, Nat.add_left_comm]
      | some v =>
        have hacc := hprim p
        rw [hp] at hacc
        simp only [acceptable, ite_eq_right_iff] at hacc
        by_cases hv : strip v = []
        · have hecho : echoes chunk (POutcome.ret (some v)) = false := by
            simp [echoes, hv]
          simp [hv, ih (p + 1) s, hrange, List.filter_cons, hp, hecho,
            Nat.add_comm, Nat.add_assoc, Nat.add_left_comm]
        · have hveq : strip v = strip chunk := by
            by_contra hne
            exact absurd (hacc ⟨hv, hne⟩) (by simp)
          have hfb : providerTryAll (provs s) chunk = chunk :=
            providerTryAll_of_all_degenerate (hprov s)
          have hcne : ¬strip chunk = [] := hveq ▸ hv
          have hecho : echoes chunk (POutcome.ret (some v)) = true := by
            simp [echoes, hv, hveq, hcne]
          simp [hv, hveq, hcne, hfb, ih (p + 1) (s + 1), hrange, List.filter_cons, hp, hecho,
            Nat.add_comm, Nat.add_assoc, Nat.add_left_comm]
          omega

/-- C2 counterexample: with a primary translator that echoes the input on
every call and a fallback provider that always raises, `_translate_chunk`
with `max_retries = 4` raises after 4 primary attempts but runs FIVE
provider-chain sweeps (one inside each echoing attempt plus the final
last-chance sweep), not the single final sweep the claim states. -/
theorem translate_chunk_sweeps_cex :
    translateChunk ['h', 'i'] (fun _ => .ret (some ['h', 'i']))
        (fun _ => [fun _ => .raise]) 4 =
      ⟨none, 4, 5⟩ ∧ (5 : Nat) ≠ 1 := by
  constructor
  · decide
  · decide

/-- C2 amended: when the primary translator and every fallback provider
are degenerate (raise, empty, or echo) on every call, `_translate_chunk`
raises deterministically after exactly `max_retries` primary attempts;
the provider chain is swept once during each attempt whose primary result
echoed the input, plus exactly one final last-chance sweep — so the sweep
count is `1 + (number of echoing attempts)`, which is 1 when the primary
always raises or returns empty, and `max_retries + 1` when it always
echoes. -/
theorem translate_chunk_exhaustion (chunk : Str) (primary : Nat → POutcome)
    (provs : Nat → List (Str → POutcome)) (maxRetries : Nat)
    (hprim : ∀ i, acceptable chunk (primary i) = none)
    (hprov : ∀ k, ∀ p ∈ provs k, acceptable chunk (p chunk) = none) :
    translateChunk chunk primary provs maxRetries =
      ⟨none, maxRetries,
        1 + ((List.range maxRetries).filter
          (fun i => echoes chunk (primary i))).length⟩ := by
  unfold translateChunk
  rw [translateChunkLoop_exhausts chunk primary provs hprim hprov maxRetries 0 0]
  rw [List.range_eq_range']
  simp

/-- Witness for `translate_chunk_exhaustion`: a primary that always raises
and an empty provider chain, `max_retries = 4`. -/
theorem translate_chunk_exhaustion_witness :
    translateChunk ['h', 'i'] (fun _ => .raise) (fun _ => []) 4 =
      ⟨none, 4,
        1 + ((List.range 4).filter
          (fun _ => echoes ['h', 'i'] (POutcome.raise))).length⟩ :=
  translate_chunk_exhaustion ['h', 'i'] (fun _ => .raise) (fun _ => []) 4
    (fun _ => rfl) (fun _ p hp => absurd hp (List.not_mem_nil p))

/-! ### C1/C3: order preservation and failure containment of the scheduler -/

theorem runCompletion_length (chunks : List Str) (outcome : Nat → Option Str)
    (provs : List (Str → POutcome)) (order : List Nat) (results : List Str) :
    (runCompletion chunks outcome provs order results).length = results.length := by
  induction order generalizing results with
  | nil => rfl
  | cons j rest ih =>
    simp only [runCompletion]
    rw [ih]
    exact List.length_set results j _

theorem runCompletion_getElem_of_not_mem (chunks : List Str)
    (outcome : Nat → Option Str) (provs : List (Str → POutcome))
    (order : List Nat) (results : List Str) (i : Nat) (hi : i ∉ order) :
    (runCompletion chunks outcome provs order results)[i]? = results[i]? := by
  induction order generalizing results with
  | nil => rfl
  | cons j rest ih =>
    simp only [runCompletion]
    rw [ih _ (fun h => hi (List.mem_cons_of_mem j h))]
    exact List.getElem?_set_ne
      (fun h => hi (by rw [← h]; exact List.mem_cons_self j rest))

theorem runCompletion_getElem_of_mem (chunks : List Str)
    (outcome : Nat → Option Str) (provs : List (Str → POutcome))
    (order : List Nat) (results : List Str) (i : Nat) (hi : i ∈ order)
    (hlen : i < results.length) :
    (runCompletion chunks outcome provs order results)[i]? =
      some (slotResult chunks outcome provs i) := by
  induction order generalizing results with
  | nil => exact absurd hi (List.not_mem_nil i)
  | cons j rest ih =>
    simp only [runCompletion]
    by_cases hmem : i ∈ rest
    · exact ih _ hmem (by rw [List.length_set]; exact hlen)
    · have hij : i = j := by
        rcases List.mem_cons.mp hi with h | h
        · exact h
        · exact absurd h hmem
      subst hij
      rw [runCompletion_getElem_of_not_mem chunks outcome provs rest _ i hmem]
      exact List.getElem?_set_eq_of_lt _ hlen

/-- The result array after all futures complete, pointwise: slot `i` holds
`slotResult i`, whatever the completion order was. -/
theorem runCompletion_eq_map (chunks : List Str) (outcome : Nat → Option Str)
    (provs : List (Str → POutcome)) (order : List Nat)
    (hperm : order.Perm (List.range chunks.length)) :
    runCompletion chunks outcome provs order (List.replicate chunks.length []) =
      (List.range chunks.length).map (slotResult chunks outcome provs) := by
  apply List.ext_getElem?
  intro i
  by_cases hi : i < chunks.length
  · rw [runCompletion_getElem_of_mem chunks outcome provs order _ i
      (hperm.mem_iff.mpr (List.mem_range.mpr hi))
      (by rw [List.length_replicate]; exact hi)]
    rw [List.getElem?_map, List.getElem?_range hi]
    rfl
  · have h1 : (runCompletion chunks outcome provs order
        (List.replicate chunks.length [])).length = chunks.length := by
      rw [runCompletion_length, List.length_replicate]
    rw [List.getElem?_eq_none (by omega), List.getElem?_eq_none (by simp; omega)]

/-- C1: for every chunk list and every completion order (hence for every
worker-pool size ≥ 1 and any interleaving of worker futures),
`translate_to_swahili`'s result array has one string per chunk and slot `i`
is the translation outcome of chunk `i` — the right-hand side does not
mention the completion order — and the joined output therefore preserves
input chunk order. -/
theorem translate_results_ordered (chunks : List Str) (outcome : Nat → Option Str)
    (provs : List (Str → POutcome)) (order : List Nat)
    (hperm : order.Perm (List.range chunks.length)) :
    (runCompletion chunks outcome provs order (List.replicate chunks.length []) =
      (List.range chunks.length).map (slotResult chunks outcome provs)) ∧
    ((runCompletion chunks outcome provs order
        (List.replicate chunks.length [])).length = chunks.length) ∧
    joinSep ['\n', '\n']
        (runCompletion chunks outcome provs order (List.replicate chunks.length [])) =
      joinSep ['\n', '\n']
        ((List.range chunks.length).map (slotResult chunks outcome provs)) := by
  have h := runCompletion_eq_map chunks outcome provs order hperm
  refine ⟨h, ?_, by rw [h]⟩
  rw [runCompletion_length, List.length_replicate]

/-- Witness for `translate_results_ordered`: two chunks completing in
reversed order `[1, 0]`. -/
theorem translate_results_ordered_witness :
    (runCompletion [['a'], ['b']] (fun i => if i = 0 then some ['x'] else none)
        [] [1, 0] (List.replicate ([['a'], ['b']] : List Str).length []) =
      (List.range ([['a'], ['b']] : List Str).length).map
        (slotResult [['a'], ['b']] (fun i => if i = 0 then some ['x'] else none) [])) ∧
    ((runCompletion [['a'], ['b']] (fun i => if i = 0 then some ['x'] else none)
        [] [1, 0] (List.replicate ([['a'], ['b']] : List Str).length [])).length =
      ([['a'], ['b']] : List Str).length) ∧
    joinSep ['\n', '\n']
        (runCompletion [['a'], ['b']] (fun i => if i = 0 then some ['x'] else none)
          [] [1, 0] (List.replicate ([['a'], ['b']] : List Str).length [])) =
      joinSep ['\n', '\n']
        ((List.range ([['a'], ['b']] : List Str).length).map
          (slotResult [['a'], ['b']] (fun i => if i = 0 then some ['x'] else none) [])) :=
  translate_results_ordered [['a'], ['b']] (fun i => if i = 0 then some ['x'] else none)
    [] [1, 0] (by decide)

/-- The line-level fallback is degenerate only verbatim: its result is
either non-empty after trimming or exactly the original chunk. -/
theorem fallbackMerge_nonblank_or_verbatim (provs : List (Str → POutcome))
    (chunk : Str) :
    strip (fallbackMerge provs chunk) ≠ [] ∨ fallbackMerge provs chunk = chunk := by
  have hdef : fallbackMerge provs chunk =
      (if strip (joinSep ['\n'] ((splitOn1 '\n' chunk).map
          (fun piece => if strip piece = [] then [] else providerTryAll provs piece))) ≠ []
        then joinSep ['\n'] ((splitOn1 '\n' chunk).map
          (fun piece => if strip piece = [] then [] else providerTryAll provs piece))
        else chunk) := rfl
  rw [hdef]
  split
  · rename_i h
    exact Or.inl h
  · exact Or.inr rfl

/-- C3 counterexample: the claim says every output slot holds a
non-degenerate string; but for the text `"\n\n"` — a producible chunk —
whose translation job raises, the line-level fallback's merged text trims
to empty, the original chunk is substituted verbatim, and the whole output
of `translate_to_swahili` is the whitespace-only string `"\n\n"`. -/
theorem slot_degenerate_cex :
    translateToSwahili ['\n', '\n'] (fun _ => none) [fun _ => .raise] [0] =
        ['\n', '\n'] ∧
      strip ['\n', '\n'] = [] := by decide

/-- C3 amended: a chunk whose job raises never propagates the exception:
its slot receives the line-level fallback (`fallbackMerge`) of the original
chunk — the merged sequential line re-translation when that trims
non-empty, else the original chunk verbatim — other chunks' slots hold
their own outcomes unaffected, and a slot can be empty after trimming only
when its original chunk already was (the fallback is degenerate only
verbatim). -/
theorem failure_containment (chunks : List Str) (outcome : Nat → Option Str)
    (provs : List (Str → POutcome)) (order : List Nat) (i : Nat)
    (hperm : order.Perm (List.range chunks.length)) (hi : i < chunks.length) :
    ((runCompletion chunks outcome provs order (List.replicate chunks.length []))[i]? =
      some (slotResult chunks outcome provs i)) ∧
    (outcome i = none →
      slotResult chunks outcome provs i = fallbackMerge provs (chunks.getD i [])) ∧
    (∀ r, outcome i = some r → slotResult chunks outcome provs i = r) ∧
    (strip (fallbackMerge provs (chunks.getD i [])) ≠ [] ∨
      fallbackMerge provs (chunks.getD i []) = chunks.getD i []) := by
  refine ⟨?_, ?_, ?_, fallbackMerge_nonblank_or_verbatim provs _⟩
  · rw [runCompletion_eq_map chunks outcome provs order hperm]
    rw [List.getElem?_map, List.getElem?_range hi]
    rfl
  · intro h
    unfold slotResult
    rw [h]
  · intro r h
    unfold slotResult
    rw [h]

/-- Witness for `failure_containment`: a three-chunk page whose middle
chunk's job raises; it falls back while chunks 0 and 2 are unaffected. -/
theorem failure_containment_witness :
    ((runCompletion [['a'], [' '], ['c']]
        (fun i => if i = 1 then none else some ['t'])
        [fun _ => .raise] [2, 1, 0]
        (List.replicate ([['a'], [' '], ['c']] : List Str).length []))[1]? =
      some (slotResult [['a'], [' '], ['c']]
        (fun i => if i = 1 then none else some ['t']) [fun _ => .raise] 1)) ∧
    ((fun i => if i = 1 then none else some ['t']) 1 = none →
      slotResult [['a'], [' '], ['c']]
          (fun i => if i = 1 then none else some ['t']) [fun _ => .raise] 1 =
        fallbackMerge [fun _ => .raise] (([['a'], [' '], ['c']] : List Str).getD 1 [])) ∧
    (∀ r, (fun i => if i = 1 then none else some ['t']) 1 = some r →
      slotResult [['a'], [' '], ['c']]
          (fun i => if i = 1 then none else some ['t']) [fun _ => .raise] 1 = r) ∧
    (strip (fallbackMerge [fun _ => .raise]
        (([['a'], [' '], ['c']] : List Str).getD 1 [])) ≠ [] ∨
      fallbackMerge [fun _ => .raise] (([['a'], [' '], ['c']] : List Str).getD 1 []) =
        ([['a'], [' '], ['c']] : List Str).getD 1 []) :=
  failure_containment [['a'], [' '], ['c']]
    (fun i => if i = 1 then none else some ['t']) [fun _ => .raise] [2, 1, 0] 1
    (by decide) (by decide)

/-! ### The layout-preserving compositor (`preserve_layout.py`)

Coordinates are floats in the source; they are modelled as rationals.
The drawing collaborator `page.insert_textbox` is modelled by an
`overflow` oracle: `overflow size text = true` means the call at that font
size returned a truthy leftover (text did not fit); `size = 0` is the
auto-fit call. -/

/-- An axis-aligned rectangle `(x0, y0, x1, y1)`. -/
structure RectQ where
  x0 : ℚ
  y0 : ℚ
  x1 : ℚ
  y1 : ℚ
deriving Repr, DecidableEq

/-- `int(base_size) if base_size and base_size > 0 else 12`: the starting
font size of the explicit descending ladder. -/
def startSize (baseSize : Option ℚ) : Nat :=
  match baseSize with
  | some b => if 0 < b then (⌊b⌋).toNat else 12
  | none => 12

/-- `range(start, 5, -1)`: the descending ladder `start, start-1, ..., 6`
(empty when `start ≤ 5`). -/
def ladder (start : Nat) : List Nat :=
  (List.range' 6 (start - 5)).reverse

/-- The outcome of `_draw_fit_text`: the auto-fit call succeeded, some
ladder size fit, or the text was truncated with an ellipsis and rendered
at the floor size 6. -/
inductive FitResult where
  | fitAuto
  | fitAt (size : Nat)
  | truncated (visible : Str)
deriving Repr, DecidableEq

/-- The `for size in range(start, 5, -1)` loop: return the first ladder
size whose draw does not overflow. -/
def descendLadder (overflow : Nat → Str → Bool) (text : Str) : List Nat → Option Nat
  | [] => none
  | s :: rest =>
    if overflow s text = false then some s else descendLadder overflow text rest

/-- `_draw_fit_text(page, rect, text, base_size, ...)` of the line-level
converter: try auto-fit (`fontsize=0`), then the descending ladder, and as
a last resort truncate to `text[: max(50, len(text) // 3)] + " …"` and
render at size 6. -/
def drawFitText (overflow : Nat → Str → Bool) (text : Str)
    (baseSize : Option ℚ) : FitResult :=
  if overflow 0 text = false then .fitAuto
  else
    match descendLadder overflow text (ladder (startSize baseSize)) with
    | some s => .fitAt s
    | none => .truncated ((text.take (max 50 (text.length / 3))) ++ [' ', '…'])

theorem descendLadder_eq_some {overflow : Nat → Str → Bool} {text : Str}
    {l : List Nat} {s : Nat} (h : descendLadder overflow text l = some s) :
    overflow s text = false := by
  induction l with
  | nil => exact absurd h (by simp [descendLadder])
  | cons a rest ih =>
    unfold descendLadder at h
    split at h
    · injection h with h
      subst h
      assumption
    · exact ih h

theorem descendLadder_some_mem {overflow : Nat → Str → Bool} {text : Str}
    {l : List Nat} {s : Nat} (h : descendLadder overflow text l = some s) :
    s ∈ l := by
  induction l with
  | nil => exact absurd h (by simp [descendLadder])
  | cons a rest ih =>
    unfold descendLadder at h
    split at h
    · injection h with h
      subst h
      exact List.mem_cons_self a rest
    · exact List.mem_cons_of_mem a (ih h)

theorem descendLadder_eq_none {overflow : Nat → Str → Bool} {text : Str}
    {l : List Nat} (h : descendLadder overflow text l = none) :
    ∀ s ∈ l, overflow s text = true := by
  induction l with
  | nil => intro s hs; exact absurd hs (List.not_mem_nil s)
  | cons a rest ih =>
    intro s hs
    unfold descendLadder at h
    split at h
    · exact absurd h (by simp)
    · rename_i hov
      rcases List.mem_cons.mp hs with rfl | hs'
      · simpa using hov
      · exact ih h s hs'

/-- The fixed descending ladder `(14, 12, 11, 10, 9, 8, 7, 6)` of the
block-level `_draw_fit_text` (`src/preserve_layout.py`). -/
def blockLadder : List Nat := [14, 12, 11, 10, 9, 8, 7, 6]

/-- `_draw_fit_text(page, rect, text)` of the block-level converter
(`src/preserve_layout.py`): try auto-fit (`fontsize=0`), then the fixed
ladder `(14, 12, ..., 6)`, and as a last resort truncate to
`text[: max(50, len(text) // 4)]` plus the file's literal marker `" â€¦"`
and render at size 6. -/
def drawFitTextBlock (overflow : Nat → Str → Bool) (text : Str) : FitResult :=
  if overflow 0 text = false then .fitAuto
  else
    match descendLadder overflow text blockLadder with
    | some s => .fitAt s
    | none => .truncated ((text.take (max 50 (text.length / 4))) ++ [' ', 'â', '€', '¦'])

/-- C8: both `_draw_fit_text` implementations always terminate in exactly
one of three states, and neither stops at a size whose draw signalled
overflow without having first tried every rung of its descending ladder
(line-level: from `int(base_size)` or 12 down to the floor 6; block-level:
the fixed `14, 12, ..., 6`) and then truncated the text to
`max(50, len(text) // 3)` resp. `max(50, len(text) // 4)` characters with
an appended ellipsis marker: either the auto-fit draw fit, or some ladder
size fit, or every ladder size overflowed and the truncated text was
rendered at the floor size.  (The no-overlap consequence is the drawing
collaborator's guarantee for a non-overflowing `insert_textbox`.) -/
theorem draw_fit_text_ladder (overflow overflowB : Nat → Str → Bool)
    (text textB : Str) (baseSize : Option ℚ) :
    ((drawFitText overflow text baseSize = .fitAuto ∧ overflow 0 text = false) ∨
     (∃ s, drawFitText overflow text baseSize = .fitAt s ∧
       overflow s text = false ∧ s ∈ ladder (startSize baseSize)) ∨
     (drawFitText overflow text baseSize =
         .truncated ((text.take (max 50 (text.length / 3))) ++ [' ', '…']) ∧
       overflow 0 text = true ∧
       ∀ s ∈ ladder (startSize baseSize), overflow s text = true)) ∧
    ((drawFitTextBlock overflowB textB = .fitAuto ∧ overflowB 0 textB = false) ∨
     (∃ s, drawFitTextBlock overflowB textB = .fitAt s ∧
       overflowB s textB = false ∧ s ∈ blockLadder) ∨
     (drawFitTextBlock overflowB textB =
         .truncated ((textB.take (max 50 (textB.length / 4))) ++ [' ', 'â', '€', '¦']) ∧
       overflowB 0 textB = true ∧
       ∀ s ∈ blockLadder, overflowB s textB = true)) := by
  constructor
  · unfold drawFitText
    by_cases h0 : overflow 0 text = false
    · exact Or.inl ⟨by rw [if_pos h0], h0⟩
    · rw [if_neg h0]
      cases hd : descendLadder overflow text (ladder (startSize baseSize)) with
      | some s =>
        exact Or.inr (Or.inl ⟨s, rfl, descendLadder_eq_some hd, descendLadder_some_mem hd⟩)
      | none =>
        exact Or.inr (Or.inr ⟨rfl, by simpa using h0, descendLadder_eq_none hd⟩)
  · unfold drawFitTextBlock
    by_cases h0 : overflowB 0 textB = false
    · exact Or.inl ⟨by rw [if_pos h0], h0⟩
    · rw [if_neg h0]
      cases hd : descendLadder overflowB textB blockLadder with
      | some s =>
        exact Or.inr (Or.inl ⟨s, rfl, descendLadder_eq_some hd, descendLadder_some_mem hd⟩)
      | none =>
        exact Or.inr (Or.inr ⟨rfl, by simpa using h0, descendLadder_eq_none hd⟩)

/-! ### The line-level layout extractor (`pdf_translator/preserve_layout.py`) -/

/-- A styled span as delivered by `page.get_text("dict")`: its text, its
bounding box (`none` when absent), its font size and its packed integer
color (`none` when the color entry is not an int). -/
structure Span where
  text : Str
  bbox : Option RectQ
  size : ℚ
  color : Option Nat
deriving Repr, DecidableEq

/-- A line-level text unit as built in `PreserveLayoutConverter.convert`:
padded bounding box, space-joined stripped text, maximal span size and RGB
color. -/
structure LineUnit where
  x0 : ℚ
  y0 : ℚ
  x1 : ℚ
  y1 : ℚ
  text : Str
  size : ℚ
  rgb : ℚ × ℚ × ℚ
deriving Repr, DecidableEq

/-- Unpack `col` as `((col >> 16) & 255) / 255.0` etc. -/
def rgbOfInt (c : Nat) : ℚ × ℚ × ℚ :=
  ((((c >>> 16) % 256 : Nat) : ℚ) / 255,
   (((c >>> 8) % 256 : Nat) : ℚ) / 255,
   ((c % 256 : Nat) : ℚ) / 255)

/-- The spans the line loop actually uses: a span is skipped when its text
strips to empty or when neither it nor the block supplies a bbox
(`bbox = s.get("bbox") or blk.get("bbox")`). -/
def usedSpans (blockBbox : Option RectQ) (spans : List Span) :
    List (Span × RectQ) :=
  spans.filterMap (fun s =>
    if strip s.text = [] then none
    else
      match s.bbox.orElse (fun _ => blockBbox) with
      | none => none
      | some bb => some (s, bb))

/-- The per-line body of `PreserveLayoutConverter.convert`: skip the line
when it has no spans, no usable span, or a blank joined text; otherwise
build the `LineUnit` whose box is the union of the used span boxes shrunk
by the 2-unit inward padding. -/
def extractLine (blockBbox : Option RectQ) (spans : List Span) : Option LineUnit :=
  if spans = [] then none
  else
    match usedSpans blockBbox spans with
    | [] => none
    | e :: es =>
      let lineText := strip (joinSep [' '] ((e :: es).map (fun u => u.1.text)))
      if lineText = [] then none
      else
        let lx0 := es.foldl (fun m u => min m u.2.x0) e.2.x0
        let ly0 := es.foldl (fun m u => min m u.2.y0) e.2.y0
        let lx1 := es.foldl (fun m u => max m u.2.x1) e.2.x1
        let ly1 := es.foldl (fun m u => max m u.2.y1) e.2.y1
        let maxSize := (e :: es).foldl (fun m u => if u.1.size > m then u.1.size else m) 0
        let colRgb := (e :: es).foldl
          (fun acc u => match u.1.color with
            | some c => rgbOfInt c
            | none => acc) (0, 0, 0)
        some ⟨lx0 + 2, ly0 + 2, lx1 - 2, ly1 - 2, lineText,
          if maxSize > 0 then maxSize else 0, colRgb⟩

/-! ### The redaction passes of the two converter variants (`convert`) -/

/-- A redaction annotation: the rectangle and the fill colour passed to
`page.add_redact_annot`. -/
structure Redact where
  rect : RectQ
  fill : Option (ℚ × ℚ × ℚ)
deriving Repr, DecidableEq

/-- The redaction pass of the line-level converter
(`pdf_translator/preserve_layout.py`): for every (line, translation) pair
whose translation is non-blank, add a redaction over the line's box with
`fill=None` so backgrounds beneath are kept. -/
def redactionsLineLevel (lines : List LineUnit) (translated : List Str) :
    List Redact :=
  (lines.zip translated).filterMap (fun lt =>
    if strip lt.2 ≠ [] then some ⟨⟨lt.1.x0, lt.1.y0, lt.1.x1, lt.1.y1⟩, none⟩
    else none)

/-- A text block of the block-level converter (`src/preserve_layout.py`):
coordinates and text from `page.get_text("blocks")`. -/
structure Block where
  rect : RectQ
  text : Str
deriving Repr, DecidableEq

/-- The redaction pass of the block-level converter
(`src/preserve_layout.py`): same selection, but the redaction is added
with `fill=(1, 1, 1)` — an opaque white fill. -/
def redactionsBlockLevel (blocks : List Block) (translated : List Str) :
    List Redact :=
  (blocks.zip translated).filterMap (fun bt =>
    if strip bt.2 ≠ [] then some ⟨bt.1.rect, some (1, 1, 1)⟩ else none)

/-! ### C7: fill colour of the redaction marks -/

/-- C7 counterexample: the claim (citing both converter variants) says the
bounding region is erased with a redaction mark that uses no fill colour;
but the block-level converter (`src/preserve_layout.py`) issues its
redactions with `fill=(1, 1, 1)` — an opaque white fill that paints over
background shapes and images beneath the region. -/
theorem block_redaction_white_fill_cex :
    redactionsBlockLevel [⟨⟨0, 0, 10, 10⟩, ['x']⟩] [['y']] =
        [⟨⟨0, 0, 10, 10⟩, some (1, 1, 1)⟩] ∧
      some ((1 : ℚ), (1 : ℚ), (1 : ℚ)) ≠ (none : Option (ℚ × ℚ × ℚ)) := by
  refine ⟨by decide, by simp⟩

/-- C7 amended: the line-level converter
(`pdf_translator/preserve_layout.py`) erases with no fill colour — every
redaction it issues has `fill=None`, and it issues one over the unit's box
for exactly the units whose translation is non-empty after trimming; the
block-level variant (`src/preserve_layout.py`) instead fills the region
white. -/
theorem line_redactions_no_fill (lines : List LineUnit) (translated : List Str) :
    (∀ r ∈ redactionsLineLevel lines translated, r.fill = none) ∧
    (∀ lt ∈ lines.zip translated, strip lt.2 ≠ [] →
      (⟨⟨lt.1.x0, lt.1.y0, lt.1.x1, lt.1.y1⟩, none⟩ : Redact) ∈
        redactionsLineLevel lines translated) := by
  constructor
  · intro r hr
    rw [redactionsLineLevel, List.mem_filterMap] at hr
    obtain ⟨lt, hmem, heq⟩ := hr
    split at heq
    · injection heq with heq
      rw [← heq]
    · exact absurd heq (by simp)
  · intro lt hmem hne
    rw [redactionsLineLevel, List.mem_filterMap]
    exact ⟨lt, hmem, by rw [if_pos hne]⟩

/-! ### C9: the line-unit invariant -/

theorem foldl_min_le_init {α : Type} (f : α → ℚ) (init : ℚ) (l : List α) :
    l.foldl (fun m u => min m (f u)) init ≤ init := by
  induction l generalizing init with
  | nil => exact le_refl init
  | cons a t ih =>
    exact le_trans (ih (min init (f a))) (min_le_left init (f a))

theorem foldl_min_le_mem {α : Type} (f : α → ℚ) (init : ℚ) (l : List α)
    (x : α) (hx : x ∈ l) :
    l.foldl (fun m u => min m (f u)) init ≤ f x := by
  induction l generalizing init with
  | nil => exact absurd hx (List.not_mem_nil x)
  | cons a t ih =>
    rcases List.mem_cons.mp hx with rfl | hx'
    · exact le_trans (foldl_min_le_init f _ t) (min_le_right init (f x))
    · exact ih _ hx'

theorem init_le_foldl_max {α : Type} (f : α → ℚ) (init : ℚ) (l : List α) :
    init ≤ l.foldl (fun m u => max m (f u)) init := by
  induction l generalizing init with
  | nil => exact le_refl init
  | cons a t ih =>
    exact le_trans (le_max_left init (f a)) (ih (max init (f a)))

theorem mem_le_foldl_max {α : Type} (f : α → ℚ) (init : ℚ) (l : List α)
    (x : α) (hx : x ∈ l) :
    f x ≤ l.foldl (fun m u => max m (f u)) init := by
  induction l generalizing init with
  | nil => exact absurd hx (List.not_mem_nil x)
  | cons a t ih =>
    rcases List.mem_cons.mp hx with rfl | hx'
    · exact le_trans (le_max_right init (f x)) (init_le_foldl_max f _ t)
    · exact ih _ hx'

/-- C9 counterexample: the claim says every extracted line unit's padded
bounding box has strictly positive width and height; but a line whose
single span box is only 3 units wide (here `(0,0,3,3)`) yields the unit
box `(2,2,1,1)` after the 2-unit inward padding on both sides: its width
is negative while its text `"Hi"` is non-blank. -/
theorem extract_line_nonpositive_cex :
    extractLine none [⟨['H', 'i'], some ⟨0, 0, 3, 3⟩, 10, none⟩] =
        some ⟨2, 2, 1, 1, ['H', 'i'], 10, (0, 0, 0)⟩ ∧
      strip ['H', 'i'] ≠ [] ∧ ¬((2 : ℚ) < 1) := by
  refine ⟨?_, by decide, by norm_num⟩
  simp [extractLine, usedSpans, strip, joinSep, isWs]
  norm_num

/-- C9 amended: every line unit the extractor produces has text that is
non-empty after trimming; its padded bounding box (union of used span
boxes shrunk 2 units inward on every side) has strictly positive width and
height provided some used span's box is more than 4 units (twice the
padding) wide and tall — narrower or shorter lines can yield a
non-positive extent. -/
theorem extract_line_invariant (blockBbox : Option RectQ) (spans : List Span)
    (u : LineUnit) (h : extractLine blockBbox spans = some u) :
    strip u.text ≠ [] ∧
    ∀ e ∈ usedSpans blockBbox spans,
      4 < e.2.x1 - e.2.x0 → 4 < e.2.y1 - e.2.y0 →
        u.x0 < u.x1 ∧ u.y0 < u.y1 := by
  unfold extractLine at h
  split at h
  · exact absurd h (by simp)
  · rename_i hspans
    rcases hused : usedSpans blockBbox spans with _ | ⟨e0, es⟩
    · rw [hused] at h
      exact absurd h (by simp)
    · rw [hused] at h
      simp only [] at h
      split at h
      · exact absurd h (by simp)
      · rename_i htext
        injection h with h
        subst h
        refine ⟨strip_strip_ne_nil htext, ?_⟩
        intro e he hw hh
        have hx0 : List.foldl (fun m u => min m u.2.x0) e0.2.x0 es ≤ e.2.x0 := by
          rcases List.mem_cons.mp he with rfl | he'
          · exact foldl_min_le_init _ _ es
          · exact foldl_min_le_mem _ _ es e he'
        have hx1 : e.2.x1 ≤ List.foldl (fun m u => max m u.2.x1) e0.2.x1 es := by
          rcases List.mem_cons.mp he with rfl | he'
          · exact init_le_foldl_max _ _ es
          · exact mem_le_foldl_max _ _ es e he'
        have hy0 : List.foldl (fun m u => min m u.2.y0) e0.2.y0 es ≤ e.2.y0 := by
          rcases List.mem_cons.mp he with rfl | he'
          · exact foldl_min_le_init _ _ es
          · exact foldl_min_le_mem _ _ es e he'
        have hy1 : e.2.y1 ≤ List.foldl (fun m u => max m u.2.y1) e0.2.y1 es := by
          rcases List.mem_cons.mp he with rfl | he'
          · exact init_le_foldl_max _ _ es
          · exact mem_le_foldl_max _ _ es e he'
        constructor
        · show List.foldl (fun m u => min m u.2.x0) e0.2.x0 es + 2 <
            List.foldl (fun m u => max m u.2.x1) e0.2.x1 es - 2
          linarith
        · show List.foldl (fun m u => min m u.2.y0) e0.2.y0 es + 2 <
            List.foldl (fun m u => max m u.2.y1) e0.2.y1 es - 2
          linarith

/-- Witness for `extract_line_invariant`: one span with a 10×10 box. -/
theorem extract_line_invariant_witness :
    strip (LineUnit.text ⟨2, 2, 8, 8, ['H', 'i'], 10, (0, 0, 0)⟩) ≠ [] ∧
    ∀ e ∈ usedSpans none [⟨['H', 'i'], some ⟨0, 0, 10, 10⟩, 10, none⟩],
      4 < e.2.x1 - e.2.x0 → 4 < e.2.y1 - e.2.y0 →
        LineUnit.x0 ⟨2, 2, 8, 8, ['H', 'i'], 10, (0, 0, 0)⟩ <
            LineUnit.x1 ⟨2, 2, 8, 8, ['H', 'i'], 10, (0, 0, 0)⟩ ∧
          LineUnit.y0 ⟨2, 2, 8, 8, ['H', 'i'], 10, (0, 0, 0)⟩ <
            LineUnit.y1 ⟨2, 2, 8, 8, ['H', 'i'], 10, (0, 0, 0)⟩ :=
  extract_line_invariant none [⟨['H', 'i'], some ⟨0, 0, 10, 10⟩, 10, none⟩]
    ⟨2, 2, 8, 8, ['H', 'i'], 10, (0, 0, 0)⟩
    (by simp [extractLine, usedSpans, strip, joinSep, isWs]; norm_num)

end PdfTranslator
